import Mathlib

/-!
# Verification of `dipy/reconst/utils.py` (probabilistic least squares and posterior sampling)

This file shallowly embeds the two statistical routines of
`src/dipy/reconst/utils.py`:

* `probabilistic_least_squares(design_matrix, y, regularization_matrix=None,
  return_posterior_precision=False)`
* `sample_coef_posterior(mean, precision, n_samples)`

Modelling conventions:

* Finite IEEE-754 doubles are modelled by exact rationals `ℚ`.  Where a claim
  hinges on the non-finite float values (`inf`, `nan`) we use the four-point
  extension `F` below, whose arithmetic follows IEEE-754 (ignoring signed
  zeros, which play no role in the code paths under study).
* `np.linalg.solve(M, B)` on an invertible matrix is modelled by
  multiplication with the exact inverse `matInv M = M.det⁻¹ • M.adjugate`;
  numpy raises `LinAlgError("Singular matrix")` exactly when the LU
  factorization meets a zero pivot, which over exact arithmetic is
  `M.det = 0`; this is modelled as the error value `NpError.singularMatrix`.
* For the infinite-regularization claim the solve cannot be modelled by the
  adjugate (the matrix contains `inf`); there we embed the actual LU algorithm
  (partial pivoting, as in LAPACK `dgesv`) over `F` for the 2×2 systems the
  claim is about.
* Python exceptions are modelled by `Except NpError`; a raised exception
  yields `.error k` and no partial outputs, mirroring the fact that an
  exception aborts the call.
-/

open Matrix

/-- Abstract error kinds of the failures the code can raise:
`numpy.linalg.LinAlgError("Singular matrix")`,
`numpy.linalg.LinAlgError("Matrix is not positive definite")`,
`ValueError` on a negative array dimension (invalid parameter), and
`ValueError` on a failed broadcast/reshape (shape mismatch). -/
inductive NpError where
  | singularMatrix
  | notPositiveDefinite
  | invalidParameter
  | shapeMismatch
  deriving DecidableEq, Repr

/-- IEEE-754 double values relevant to this code: a finite value (modelled
exactly by a rational), the two infinities, and NaN.  Signed zero is
collapsed to `fin 0`; no code path under study distinguishes `-0.0`. -/
inductive F where
  | fin (q : ℚ)
  | inf
  | ninf
  | nan
  deriving DecidableEq, Repr

namespace F

/-- IEEE-754 addition. -/
def add : F → F → F
  | fin a, fin b => fin (a + b)
  | fin _, inf => inf
  | fin _, ninf => ninf
  | inf, fin _ => inf
  | ninf, fin _ => ninf
  | inf, inf => inf
  | ninf, ninf => ninf
  | inf, ninf => nan
  | ninf, inf => nan
  | nan, _ => nan
  | _, nan => nan

/-- IEEE-754 negation. -/
def neg : F → F
  | fin a => fin (-a)
  | inf => ninf
  | ninf => inf
  | nan => nan

/-- IEEE-754 multiplication (`0 * ±inf = nan`). -/
def mul : F → F → F
  | fin a, fin b => fin (a * b)
  | fin a, inf => if a = 0 then nan else if 0 < a then inf else ninf
  | fin a, ninf => if a = 0 then nan else if 0 < a then ninf else inf
  | inf, fin b => if b = 0 then nan else if 0 < b then inf else ninf
  | ninf, fin b => if b = 0 then nan else if 0 < b then ninf else inf
  | inf, inf => inf
  | ninf, ninf => inf
  | inf, ninf => ninf
  | ninf, inf => ninf
  | nan, _ => nan
  | _, nan => nan

/-- IEEE-754 division (`0/0 = nan`, `x/0 = ±inf`, `x/±inf = 0`,
`±inf/±inf = nan`). -/
def div : F → F → F
  | fin a, fin b =>
      if b = 0 then (if a = 0 then nan else if 0 < a then inf else ninf)
      else fin (a / b)
  | fin _, inf => fin 0
  | fin _, ninf => fin 0
  | inf, fin b => if 0 ≤ b then inf else ninf
  | ninf, fin b => if 0 ≤ b then ninf else inf
  | inf, inf => nan
  | inf, ninf => nan
  | ninf, inf => nan
  | ninf, ninf => nan
  | nan, _ => nan
  | _, nan => nan

instance : Add F := ⟨F.add⟩
instance : Neg F := ⟨F.neg⟩
instance : Mul F := ⟨F.mul⟩
instance : Div F := ⟨F.div⟩

/-- IEEE-754 subtraction. -/
def sub (x y : F) : F := x + (-y)

instance : Sub F := ⟨F.sub⟩

end F

/-- Quotient of two finite doubles, as numpy computes it
(`0.0/0.0 = nan`, `x/0.0 = ±inf`, else exact). -/
def fdiv (a b : ℚ) : F :=
  if b = 0 then (if a = 0 then F.nan else if 0 < a then F.inf else F.ninf)
  else F.fin (a / b)

/-- A finite double divided by an arbitrary double (used when the unscaled
precision matrix, which is finite, is divided by the residual variance,
which may be `nan` or `inf`). -/
def fdivF (a : ℚ) : F → F
  | F.fin b => fdiv a b
  | F.inf => F.fin 0
  | F.ninf => F.fin 0
  | F.nan => F.nan

/-- Exact inverse of a square rational matrix, `det⁻¹ • adjugate`.
For `det ≠ 0` this is the unique two-sided inverse, and is what
`np.linalg.solve` computes (exactly) on an invertible system. -/
def matInv {p : ℕ} (M : Matrix (Fin p) (Fin p) ℚ) : Matrix (Fin p) (Fin p) ℚ :=
  M.det⁻¹ • M.adjugate

/-- `np.einsum('...ki, ...kj->...ij', design_matrix, design_matrix)
    (+ regularization_matrix)`: the Gram matrix of the design, regularized. -/
def unscaledPrecision {m p : ℕ} (A : Matrix (Fin m) (Fin p) ℚ)
    (R : Option (Matrix (Fin p) (Fin p) ℚ)) : Matrix (Fin p) (Fin p) ℚ :=
  match R with
  | none => Aᵀ * A
  | some R => Aᵀ * A + R

/-- Output of `probabilistic_least_squares` without the precision flag:
posterior mean (a length-`p` vector) and residual variance (a scalar double,
possibly `inf`/`nan` when the effective degrees of freedom vanish). -/
structure PLS (p : ℕ) where
  mean : Fin p → ℚ
  residualVariance : F
  deriving DecidableEq

/-- `probabilistic_least_squares(design_matrix, y, regularization_matrix)`
for a single observation vector `y`, with `return_posterior_precision=False`.

Follows the source line by line: unscaled posterior precision, a linear solve
for the pseudo-inverse (failing as `SingularMatrixError` when the matrix is
singular), posterior mean, smoother matrix, residual matrix and the residual
variance as the quotient of the squared residual norm by the squared
Frobenius norm of the residual matrix. -/
def probLeastSquares {m p : ℕ} (A : Matrix (Fin m) (Fin p) ℚ) (y : Fin m → ℚ)
    (R : Option (Matrix (Fin p) (Fin p) ℚ)) : Except NpError (PLS p) :=
  let U := unscaledPrecision A R
  if U.det = 0 then .error .singularMatrix
  else
    let pseudoInv := matInv U * Aᵀ
    let mean := pseudoInv.mulVec y
    let smoother := A * pseudoInv
    let residualMatrix := (1 : Matrix (Fin m) (Fin m) ℚ) - smoother
    let residuals := fun i => y i - A.mulVec mean i
    .ok ⟨mean, fdiv (∑ i, residuals i ^ 2) (∑ i, ∑ j, residualMatrix i j ^ 2)⟩

instance {ε α : Type} [DecidableEq ε] [DecidableEq α] : DecidableEq (Except ε α) := fun
  | .ok a, .ok b => by
      cases decEq a b with
      | isTrue h => exact isTrue (by rw [h])
      | isFalse h => exact isFalse (by intro hh; cases hh; exact h rfl)
  | .ok _, .error _ => isFalse (by intro h; cases h)
  | .error _, .ok _ => isFalse (by intro h; cases h)
  | .error a, .error b => by
      cases decEq a b with
      | isTrue h => exact isTrue (by rw [h])
      | isFalse h => exact isFalse (by intro hh; cases hh; exact h rfl)

/-- Output of `probabilistic_least_squares` with
`return_posterior_precision=True` on a single observation vector:
posterior mean, residual variance, and the posterior precision matrix. -/
structure PLSP (p : ℕ) where
  mean : Fin p → ℚ
  residualVariance : F
  precision : Fin p → Fin p → F
  deriving DecidableEq

/-- `probabilistic_least_squares(design_matrix, y, regularization_matrix,
return_posterior_precision=True)` for a single observation vector.

After the shared computation, the code runs `np.atleast_2d(mean)` (shape
`(1, p)`, so `n_voxels = 1`, `n_coefs = p`), squeezes the mean back,
divides the `(p, p)` unscaled precision by the scalar residual variance,
reshapes to `(1, p, p)` and squeezes back to `(p, p)`: the net effect on a
single unit is the elementwise scalar division below. -/
def probLeastSquaresP {m p : ℕ} (A : Matrix (Fin m) (Fin p) ℚ) (y : Fin m → ℚ)
    (R : Option (Matrix (Fin p) (Fin p) ℚ)) : Except NpError (PLSP p) :=
  let U := unscaledPrecision A R
  if U.det = 0 then .error .singularMatrix
  else
    let pseudoInv := matInv U * Aᵀ
    let mean := pseudoInv.mulVec y
    let smoother := A * pseudoInv
    let residualMatrix := (1 : Matrix (Fin m) (Fin m) ℚ) - smoother
    let residuals := fun i => y i - A.mulVec mean i
    let rv := fdiv (∑ i, residuals i ^ 2) (∑ i, ∑ j, residualMatrix i j ^ 2)
    .ok ⟨mean, rv, fun i j => fdivF (U i j) rv⟩

/-- Output of `probabilistic_least_squares` on a stack of `n` observation
vectors (without the precision flag): means of shape `(n, p)` and residual
variances of shape `(n,)`, exactly as the code returns them (no squeeze on
this path). -/
structure PLSB (n p : ℕ) where
  mean : Fin n → Fin p → ℚ
  residualVariance : Fin n → F
  deriving DecidableEq

/-- `probabilistic_least_squares(design_matrix, Y)` where `Y` stacks `n`
observation vectors along a leading batch axis.  With a shared 2-D design
the batched einsums act row-wise on `Y`: each unit is solved with the same
pseudo-inverse, and the Frobenius denominator of the residual variance is a
shared scalar. -/
def probLeastSquaresBatch {m p n : ℕ} (A : Matrix (Fin m) (Fin p) ℚ)
    (Y : Fin n → Fin m → ℚ) (R : Option (Matrix (Fin p) (Fin p) ℚ)) :
    Except NpError (PLSB n p) :=
  let U := unscaledPrecision A R
  if U.det = 0 then .error .singularMatrix
  else
    let pseudoInv := matInv U * Aᵀ
    let mean := fun v => pseudoInv.mulVec (Y v)
    let smoother := A * pseudoInv
    let residualMatrix := (1 : Matrix (Fin m) (Fin m) ℚ) - smoother
    let residuals := fun v i => Y v i - A.mulVec (mean v) i
    .ok ⟨mean, fun v =>
      fdiv (∑ i, residuals v i ^ 2) (∑ i, ∑ j, residualMatrix i j ^ 2)⟩

/-- Batched output with the precision flag: per-unit means, residual
variances and precision matrices. -/
structure PLSBP (n p : ℕ) where
  mean : Fin n → Fin p → ℚ
  residualVariance : Fin n → F
  precision : Fin n → Fin p → Fin p → F
  deriving DecidableEq

/-- Batched `probabilistic_least_squares` with
`return_posterior_precision=True`.

The code computes `unscaled_posterior_precision / residual_variance` where
the left operand has shape `(p, p)` and the right operand has shape `(n,)`,
then reshapes the quotient to `(n, p, p)`.  Under numpy broadcasting the
division is accepted only when `n = p`, `n = 1` or `p = 1` (trailing axes
must match or be 1), and the reshape additionally requires the quotient's
element count `p * max p n` to equal `n * p * p`; together these conditions
hold exactly when `n = 1` or `p = 1`.  In every other case numpy raises a
`ValueError` — a shape-mismatch failure — even though the mean and residual
variance were already computed (the exception discards them).  For `n = 1`
the single scalar `rv 0` divides the whole matrix; for `p = 1` the `(1, n)`
quotient row is reshaped to `(n, 1, 1)` so unit `v` receives
`U 0 0 / rv v`. -/
def probLeastSquaresBatchP {m p n : ℕ} (A : Matrix (Fin m) (Fin p) ℚ)
    (Y : Fin n → Fin m → ℚ) (R : Option (Matrix (Fin p) (Fin p) ℚ)) :
    Except NpError (PLSBP n p) :=
  let U := unscaledPrecision A R
  if U.det = 0 then .error .singularMatrix
  else
    let pseudoInv := matInv U * Aᵀ
    let mean := fun v => pseudoInv.mulVec (Y v)
    let smoother := A * pseudoInv
    let residualMatrix := (1 : Matrix (Fin m) (Fin m) ℚ) - smoother
    let residuals := fun v i => Y v i - A.mulVec (mean v) i
    let rv := fun v =>
      fdiv (∑ i, residuals v i ^ 2) (∑ i, ∑ j, residualMatrix i j ^ 2)
    if hn : n = 1 then
      .ok ⟨mean, rv, fun _ i j => fdivF (U i j) (rv ⟨0, by omega⟩)⟩
    else if hp : p = 1 then
      .ok ⟨mean, rv, fun v i j => fdivF (U i j) (rv v)⟩
    else .error .shapeMismatch

/-- For a nonsingular matrix, `matInv` is a left inverse. -/
theorem matInv_mul_self {p : ℕ} (M : Matrix (Fin p) (Fin p) ℚ)
    (h : M.det ≠ 0) : matInv M * M = 1 := by
  rw [matInv, Matrix.smul_mul, Matrix.adjugate_mul, smul_smul,
    inv_mul_cancel₀ h, one_smul]

/-- For a nonsingular matrix, `matInv` is a right inverse. -/
theorem self_mul_matInv {p : ℕ} (M : Matrix (Fin p) (Fin p) ℚ)
    (h : M.det ≠ 0) : M * matInv M = 1 := by
  rw [matInv, Matrix.mul_smul, Matrix.mul_adjugate, smul_smul,
    inv_mul_cancel₀ h, one_smul]

example : probLeastSquares !![(1:ℚ), 0; 1, 1; 1, 2] ![1, 3, 5] none
    = .ok ⟨![1, 2], F.fin 0⟩ := by
  have hU : unscaledPrecision !![(1:ℚ), 0; 1, 1; 1, 2] none = !![3, 3; 3, 5] := by
    ext i j
    fin_cases i <;> fin_cases j <;>
      simp [unscaledPrecision, Matrix.mul_apply, Fin.sum_univ_three,
        Matrix.transpose_apply, Matrix.vecHead, Matrix.vecTail] <;> norm_num
  have hdet : (!![(3:ℚ), 3; 3, 5]).det = 6 := by
    simp [Matrix.det_fin_two]; norm_num
  have hinv : matInv !![(3:ℚ), 3; 3, 5] = !![5/6, -1/2; -1/2, 1/2] := by
    rw [matInv, hdet, Matrix.adjugate_fin_two]
    ext i j
    fin_cases i <;> fin_cases j <;> simp <;> norm_num
  rw [probLeastSquares]
  rw [hU, hdet]
  norm_num
  rw [hinv]
  constructor
  · ext i
    fin_cases i <;>
      simp [Matrix.mulVec, Matrix.mul_apply, Matrix.dotProduct,
        Fin.sum_univ_three, Fin.sum_univ_two, Matrix.transpose_apply,
        Matrix.vecHead, Matrix.vecTail] <;> norm_num
  · simp [Matrix.mulVec, Matrix.mul_apply, Matrix.dotProduct, fdiv,
      Fin.sum_univ_three, Fin.sum_univ_two, Matrix.transpose_apply,
      Matrix.vecHead, Matrix.vecTail, Matrix.one_apply, Matrix.sub_apply]
    norm_num

/-- Sum of squares of rational matrix entries vanishes only for the zero
matrix. -/
theorem sum_sq_eq_zero_iff {m : ℕ} (M : Matrix (Fin m) (Fin m) ℚ)
    (h : (∑ i, ∑ j, M i j ^ 2) = 0) : M = 0 := by
  ext i j
  have houter : ∀ i ∈ Finset.univ, (∑ j, M i j ^ 2) = 0 := by
    rw [← Finset.sum_eq_zero_iff_of_nonneg]
    · exact h
    · intro k _
      exact Finset.sum_nonneg fun l _ => sq_nonneg _
  have hinner : ∀ j ∈ Finset.univ, M i j ^ 2 = 0 := by
    rw [← Finset.sum_eq_zero_iff_of_nonneg]
    · exact houter i (Finset.mem_univ i)
    · intro l _
      exact sq_nonneg _
  have := hinner j (Finset.mem_univ j)
  simpa using pow_eq_zero_iff (n := 2) (by norm_num) |>.mp this

/-- The residual matrix `I - A (AᵀA)⁻¹ Aᵀ` has trace `m - p`, the classical
residual degrees of freedom, when the Gram matrix is invertible. -/
theorem residualMatrix_trace {m p : ℕ} (A : Matrix (Fin m) (Fin p) ℚ)
    (hdet : (Aᵀ * A).det ≠ 0) :
    ((1 : Matrix (Fin m) (Fin m) ℚ) - A * (matInv (Aᵀ * A) * Aᵀ)).trace
      = (m : ℚ) - p := by
  rw [Matrix.trace_sub, Matrix.trace_one]
  have hsm : (A * (matInv (Aᵀ * A) * Aᵀ)).trace = (p : ℚ) := by
    rw [Matrix.trace_mul_comm, Matrix.mul_assoc, matInv_mul_self _ hdet,
      Matrix.trace_one]
    simp
  rw [hsm]
  simp

/-- C2 (amended): for every full-column-rank design with strictly more
observations than coefficients and exact observations `y = A *ᵥ c`, the
solver with no regularization returns posterior mean exactly `c` and
residual variance exactly `0`.  (The amendment adds `p < m`: for a square
invertible design the Frobenius norm of the residual matrix is `0` and the
code computes the residual variance as `0.0/0.0`, i.e. `nan`, not `0` —
see the counterexample theorem.) -/
theorem C2_noiseless_recovery {m p : ℕ} (A : Matrix (Fin m) (Fin p) ℚ)
    (c : Fin p → ℚ) (hdet : (Aᵀ * A).det ≠ 0) (hmp : p < m) :
    probLeastSquares A (A.mulVec c) none = .ok ⟨c, F.fin 0⟩ := by
  have hmean : (matInv (Aᵀ * A) * Aᵀ).mulVec (A.mulVec c) = c := by
    rw [Matrix.mulVec_mulVec, Matrix.mul_assoc, matInv_mul_self _ hdet,
      Matrix.one_mulVec]
  have hden : (∑ i, ∑ j,
      ((1 : Matrix (Fin m) (Fin m) ℚ) - A * (matInv (Aᵀ * A) * Aᵀ)) i j ^ 2)
        ≠ 0 := by
    intro h0
    have hzero := sum_sq_eq_zero_iff _ h0
    have htr := residualMatrix_trace A hdet
    rw [hzero, Matrix.trace_zero] at htr
    have : (m : ℚ) = (p : ℚ) := by linarith
    have : m = p := Nat.cast_injective this
    omega
  have hU : unscaledPrecision A none = Aᵀ * A := rfl
  simp only [probLeastSquares, hU, if_neg hdet]
  rw [hmean]
  have hnum : (∑ i : Fin m, ((A.mulVec c) i - (A.mulVec c) i) ^ 2) = 0 := by
    simp
  rw [hnum]
  simp only [fdiv, if_neg hden]
  norm_num

/-- C2 counterexample: a square, full-column-rank design (one observation,
one coefficient).  The fit is exact, but the residual matrix is identically
zero, so the code evaluates `0.0 / 0.0` and the returned residual variance
is `nan`, not `0` as the claim states for every full-column-rank design. -/
theorem C2_counterexample :
    probLeastSquares !![(1:ℚ)] ![1] none = .ok ⟨![1], F.nan⟩ ∧
      F.nan ≠ F.fin 0 := by
  constructor
  · simp [probLeastSquares, unscaledPrecision, matInv, Matrix.det_fin_one,
      Matrix.adjugate_fin_one, Matrix.mul_apply, Matrix.mulVec,
      Matrix.dotProduct, fdiv, Matrix.one_apply, Matrix.sub_apply,
      Matrix.transpose_apply, Fin.sum_univ_succ, Matrix.vecHead,
      Matrix.vecTail, Function.comp, funext_iff, Fin.forall_fin_one]
  · decide

/-- C2 witness: the amended theorem applied to the 2-observation,
1-coefficient design `[[1], [1]]` with true coefficient `2`. -/
theorem C2_witness :
    ((!![(1:ℚ); 1]ᵀ * !![(1:ℚ); 1]).det ≠ 0 ∧ 1 < 2) ∧
      probLeastSquares !![(1:ℚ); 1] (!![(1:ℚ); 1].mulVec ![2]) none
        = .ok ⟨![2], F.fin 0⟩ := by
  have hdet : (!![(1:ℚ); 1]ᵀ * !![(1:ℚ); 1]).det ≠ 0 := by
    have : (!![(1:ℚ); 1]ᵀ * !![(1:ℚ); 1]).det = 2 := by
      rw [Matrix.det_fin_one]
      simp [Matrix.mul_apply, Fin.sum_univ_two, Matrix.transpose_apply,
        Matrix.vecHead, Matrix.vecTail]
      norm_num
    rw [this]
    norm_num
  exact ⟨⟨hdet, by norm_num⟩, C2_noiseless_recovery _ _ hdet (by norm_num)⟩

/-- C5: a rank-deficient design (a nontrivial kernel vector exists, i.e.
column rank < number of coefficients) with no regularization makes the Gram
matrix singular, so the call fails with the singular-matrix error kind and
returns no partial results. -/
theorem C5_singular_error {m p : ℕ} (A : Matrix (Fin m) (Fin p) ℚ)
    (y : Fin m → ℚ) (h : ∃ x : Fin p → ℚ, x ≠ 0 ∧ A.mulVec x = 0) :
    probLeastSquares A y none = .error .singularMatrix := by
  obtain ⟨x, hx, hAx⟩ := h
  have hdet : (Aᵀ * A).det = 0 := by
    by_contra hd
    apply hx
    have h1 : (Aᵀ * A).mulVec x = 0 := by
      rw [← Matrix.mulVec_mulVec, hAx, Matrix.mulVec_zero]
    calc x = (1 : Matrix (Fin p) (Fin p) ℚ).mulVec x :=
            (Matrix.one_mulVec x).symm
      _ = (matInv (Aᵀ * A) * (Aᵀ * A)).mulVec x := by
            rw [matInv_mul_self _ hd]
      _ = (matInv (Aᵀ * A)).mulVec ((Aᵀ * A).mulVec x) :=
            (Matrix.mulVec_mulVec _ _ _).symm
      _ = 0 := by rw [h1, Matrix.mulVec_zero]
  have hU : unscaledPrecision A none = Aᵀ * A := rfl
  simp only [probLeastSquares, hU, hdet, if_pos]

/-- C5 witness: the rank-deficient 3×2 design with equal columns, kernel
vector `(1, -1)`. -/
theorem C5_witness :
    (![(1:ℚ), -1] ≠ 0 ∧ (!![(1:ℚ), 1; 1, 1; 2, 2]).mulVec ![1, -1] = 0) ∧
      probLeastSquares !![(1:ℚ), 1; 1, 1; 2, 2] ![1, 2, 3] none
        = .error .singularMatrix := by
  have hker : (!![(1:ℚ), 1; 1, 1; 2, 2]).mulVec ![1, -1] = 0 := by
    funext i
    fin_cases i <;>
      simp [Matrix.mulVec, Matrix.dotProduct, Fin.sum_univ_two,
        Matrix.vecHead, Matrix.vecTail] <;> norm_num
  have hne : ![(1:ℚ), -1] ≠ 0 := by
    intro h
    have h0 := congrFun h 0
    norm_num at h0
  exact ⟨⟨hne, hker⟩, C5_singular_error _ _ ⟨![1, -1], hne, hker⟩⟩

/-- The Gram matrix of the test design `[[1,0],[1,1],[1,2]]`. -/
theorem gram_design312 :
    unscaledPrecision !![(1:ℚ), 0; 1, 1; 1, 2] none = !![3, 3; 3, 5] := by
  ext i j
  fin_cases i <;> fin_cases j <;>
    simp [unscaledPrecision, Matrix.mul_apply, Fin.sum_univ_three,
      Matrix.transpose_apply, Matrix.vecHead, Matrix.vecTail] <;>
    norm_num

/-- Its determinant is `6`, so the Gram matrix is invertible. -/
theorem det_gram312 : (!![(3:ℚ), 3; 3, 5]).det = 6 := by
  simp [Matrix.det_fin_two]
  norm_num

/-- C3 (amended, single-unit part): for every single observation vector the
posterior precision returned by the precision-requesting call is exactly the
unscaled precision divided elementwise by that call's residual variance. -/
theorem C3_precision_scaling {m p : ℕ} (A : Matrix (Fin m) (Fin p) ℚ)
    (y : Fin m → ℚ) (R : Option (Matrix (Fin p) (Fin p) ℚ)) :
    (probLeastSquaresP A y R).map (fun r => r.precision)
      = (probLeastSquares A y R).map
          (fun r => fun i j => fdivF (unscaledPrecision A R i j)
            r.residualVariance) := by
  by_cases hdet : (unscaledPrecision A R).det = 0 <;>
    simp [probLeastSquaresP, probLeastSquares, hdet, Except.map]

/-- C3 counterexample: a batched call (2 units, 2 coefficients) with the
precision flag.  The scalar division `U / residual_variance` attempts to
broadcast shape `(2, 2)` against shape `(2,)` and then reshape to
`(2, 2, 2)`, which numpy rejects: the call raises a shape error instead of
returning the per-unit scaled precision the claim promises for every batch.
-/
theorem C3_counterexample :
    probLeastSquaresBatchP !![(1:ℚ), 0; 1, 1; 1, 2] ![![1, 3, 5], ![2, 4, 6]]
      none = .error .shapeMismatch := by
  have hdet : ¬ (unscaledPrecision !![(1:ℚ), 0; 1, 1; 1, 2] none).det = 0 := by
    rw [gram_design312, det_gram312]
    norm_num
  simp [probLeastSquaresBatchP, hdet]

/-- Absolute value of a double (`nan` propagates). -/
def F.fabs : F → F
  | F.fin a => F.fin |a|
  | F.inf => F.inf
  | F.ninf => F.inf
  | F.nan => F.nan

/-- "strictly larger absolute value" test used by partial pivoting: LAPACK
`idamax` selects the first index of maximal absolute value, so the rows of a
2×2 system are swapped exactly when the second entry of the pivot column is
strictly larger in absolute value than the first. -/
def F.absGT (x y : F) : Bool :=
  match x.fabs, y.fabs with
  | F.fin a, F.fin b => decide (b < a)
  | F.inf, F.fin _ => true
  | _, _ => false

/-- The data of a pivoted 2×2 LU factorization: whether the rows were
swapped, the pivot row `(m00, m01)`, the elimination multiplier `l`, and the
trailing pivot `u11`. -/
structure LU2 where
  swap : Bool
  m00 : F
  m01 : F
  l : F
  u11 : F
  deriving DecidableEq, Repr

/-- The LU factorization step of `np.linalg.solve` (LAPACK `dgetrf`) for a
2×2 system over doubles: partial pivoting on the first column, one
elimination step.  `dgetrf` reports singularity — and numpy raises
`LinAlgError("Singular matrix")` — exactly when a pivot is exactly zero. -/
def lu2aux (M : Fin 2 → Fin 2 → F) (swap : Bool) : Except NpError LU2 :=
  let m00 := if swap then M 1 0 else M 0 0
  let m01 := if swap then M 1 1 else M 0 1
  let m10 := if swap then M 0 0 else M 1 0
  let m11 := if swap then M 0 1 else M 1 1
  if m00 = F.fin 0 then .error .singularMatrix
  else
    let l := m10 / m00
    let u11 := m11 - l * m01
    if u11 = F.fin 0 then .error .singularMatrix
    else .ok ⟨swap, m00, m01, l, u11⟩

/-- The factorization entry point: decide the pivot swap, then factor. -/
def lu2 (M : Fin 2 → Fin 2 → F) : Except NpError LU2 :=
  lu2aux M (F.absGT (M 1 0) (M 0 0))

/-- Forward/backward substitution of `np.linalg.solve` (LAPACK `dgetrs`)
for one right-hand side, given the 2×2 factorization. -/
def lu2solve (f : LU2) (b : Fin 2 → F) : Fin 2 → F :=
  let b0 := if f.swap then b 1 else b 0
  let b1 := if f.swap then b 0 else b 1
  let x1 := (b1 - f.l * b0) / f.u11
  let x0 := (b0 - f.m01 * x1) / f.m00
  ![x0, x1]

/-- Left-to-right summation over `Fin k`, modelling `np.sum`/`np.einsum`
accumulation over doubles.  (In the computations below at most one addend is
non-finite, so the accumulation order cannot change any result.) -/
def fsumF : (k : ℕ) → (Fin k → F) → F
  | 0, _ => F.fin 0
  | k + 1, f => f 0 + fsumF k (fun i => f i.succ)

/-- Result of the double-valued 2-coefficient solver. -/
structure PLSF where
  mean : Fin 2 → F
  residualVariance : F
  deriving DecidableEq, Repr

/-- `probabilistic_least_squares(design_matrix, y, regularization_matrix)`
over IEEE doubles for a 2-coefficient design, used for the
infinite-regularization claim: design and observations are finite doubles,
the regularization matrix may contain `inf`.  The linear solve is the
pivoted LU algorithm above (one factorization of the Gram matrix, one
substitution per column of `design_matrix.T`, exactly as `dgesv` treats a
multi-column right-hand side); all other lines are the same einsum/sum
arithmetic as the rational model, evaluated in double semantics. -/
def probLeastSquaresF {m : ℕ} (A : Fin m → Fin 2 → ℚ) (y : Fin m → ℚ)
    (R : Fin 2 → Fin 2 → F) : Except NpError PLSF :=
  let U : Fin 2 → Fin 2 → F := fun i j =>
    fsumF m (fun k => F.fin (A k i) * F.fin (A k j)) + R i j
  match lu2 U with
  | .error e => .error e
  | .ok f =>
    let pseudoInv : Fin 2 → Fin m → F := fun i j =>
      lu2solve f (fun k => F.fin (A j k)) i
    let mean : Fin 2 → F := fun i =>
      fsumF m (fun j => pseudoInv i j * F.fin (y j))
    let smoother : Fin m → Fin m → F := fun i j =>
      fsumF 2 (fun k => F.fin (A i k) * pseudoInv k j)
    let residualMatrix : Fin m → Fin m → F := fun i j =>
      (if i = j then F.fin 1 else F.fin 0) - smoother i j
    let residuals : Fin m → F := fun i =>
      F.fin (y i) - fsumF 2 (fun j => F.fin (A i j) * mean j)
    let num := fsumF m (fun i => residuals i * residuals i)
    let den := fsumF m (fun i =>
      fsumF m (fun j => residualMatrix i j * residualMatrix i j))
    .ok ⟨mean, num / den⟩

/-- The design matrix of the infinite-regularization example,
`[[1,0],[1,1],[1,2]]`. -/
def design3 : Fin 3 → Fin 2 → ℚ := ![![1, 0], ![1, 1], ![1, 2]]

/-- The regularization matrix `np.diag([0, np.inf])`. -/
def regInf : Fin 2 → Fin 2 → F :=
  ![![F.fin 0, F.fin 0], ![F.fin 0, F.inf]]

theorem F.fin_mul_fin (a b : ℚ) : F.fin a * F.fin b = F.fin (a * b) := rfl

theorem F.fin_add_fin (a b : ℚ) : F.fin a + F.fin b = F.fin (a + b) := rfl

theorem F.fin_add_inf (a : ℚ) : F.fin a + F.inf = F.inf := rfl

theorem F.inf_add_fin (a : ℚ) : F.inf + F.fin a = F.inf := rfl

theorem F.fin_sub_fin (a b : ℚ) : F.fin a - F.fin b = F.fin (a - b) := by
  show F.fin (a + -b) = F.fin (a - b)
  rw [← sub_eq_add_neg]

theorem F.inf_sub_fin (b : ℚ) : F.inf - F.fin b = F.inf := rfl

theorem F.fin_div_inf (a : ℚ) : F.fin a / F.inf = F.fin 0 := rfl

theorem F.fin_div_fin (a b : ℚ) (h : b ≠ 0) :
    F.fin a / F.fin b = F.fin (a / b) := by
  show F.div (F.fin a) (F.fin b) = F.fin (a / b)
  simp [F.div, h]

/-- The regularized Gram matrix of the example: `[[3, 3], [3, inf]]` (the
infinite diagonal entry of the regularization dominates the finite Gram
entry `5`). -/
theorem gram_design3_inf :
    (fun i j =>
        fsumF 3 (fun k => F.fin (design3 k i) * F.fin (design3 k j))
          + regInf i j)
      = ![![F.fin 3, F.fin 3], ![F.fin 3, F.inf]] := by
  funext i j
  fin_cases i <;> fin_cases j <;>
    simp [fsumF, design3, regInf, F.fin_mul_fin, F.fin_add_fin,
      F.fin_add_inf, Matrix.vecHead, Matrix.vecTail] <;>
    norm_num

/-- The pivoted LU factorization of `[[3, 3], [3, inf]]`: no row swap
(`idamax` keeps the first row on the tie `|3| = |3|`), multiplier `1`,
trailing pivot `inf - 1·3 = inf`. -/
theorem lu2_design3_inf :
    lu2 ![![F.fin 3, F.fin 3], ![F.fin 3, F.inf]]
      = .ok ⟨false, F.fin 3, F.fin 3, F.fin 1, F.inf⟩ := by
  have habs : F.absGT (F.fin 3) (F.fin 3) = false := by
    simp [F.absGT, F.fabs]
  rw [lu2]
  simp only [Matrix.cons_val_zero, Matrix.cons_val_one, Matrix.head_cons]
  rw [habs, lu2aux]
  simp [F.fin_div_fin, F.fin_mul_fin, F.inf_sub_fin]

/-- Substituting each column of the transposed design: the finite right-hand
sides are divided by the infinite trailing pivot, so the second row of the
pseudo-inverse is exactly `0`; the first row is `1/3`. -/
theorem lu2solve_design3 (j : Fin 3) :
    lu2solve ⟨false, F.fin 3, F.fin 3, F.fin 1, F.inf⟩
        (fun k => F.fin (design3 j k))
      = ![F.fin (1/3), F.fin 0] := by
  fin_cases j <;>
    · funext i
      fin_cases i <;>
        norm_num [lu2solve, design3, F.fin_mul_fin, F.fin_sub_fin,
          F.fin_div_inf, F.fin_div_fin, Matrix.vecHead, Matrix.vecTail]

/-- C4: with design `[[1,0],[1,1],[1,2]]` and regularization `diag(0, inf)`,
the posterior-mean component of the infinitely regularized coefficient is
exactly zero for every observation vector `y` (the infinite diagonal entry
drives the corresponding pseudo-inverse row to exact zeros under IEEE
arithmetic), and on the concrete data `y = [1,3,5]` the call returns mean
`[3, 0]` and residual variance `4`. -/
theorem C4_hard_zero :
    (∀ y : Fin 3 → ℚ,
      (probLeastSquaresF design3 y regInf).map (fun r => r.mean 1)
        = .ok (F.fin 0)) ∧
    probLeastSquaresF design3 ![1, 3, 5] regInf
        = .ok ⟨![F.fin 3, F.fin 0], F.fin 4⟩ := by
  constructor
  · intro y
    rw [probLeastSquaresF, gram_design3_inf, lu2_design3_inf]
    simp only [Except.map, lu2solve_design3]
    norm_num [fsumF, F.fin_mul_fin, F.fin_add_fin]
  · rw [probLeastSquaresF, gram_design3_inf, lu2_design3_inf]
    simp only [lu2solve_design3]
    have h02 : ((0 : Fin 3) = 2) = False := by decide
    have h12 : ((1 : Fin 3) = 2) = False := by decide
    have h20 : ((2 : Fin 3) = 0) = False := by decide
    have h21 : ((2 : Fin 3) = 1) = False := by decide
    norm_num [fsumF, F.fin_mul_fin, F.fin_add_fin, F.fin_sub_fin,
      F.fin_div_fin, design3, Matrix.vecHead, Matrix.vecTail,
      funext_iff, Fin.forall_fin_two, Fin.forall_fin_one,
      h02, h12, h20, h21]

/-- One step of the (lower) Cholesky pivot recursion: the trailing
submatrix after eliminating the first row/column,
`S i j = M (i+1) (j+1) - M (i+1) 0 · M (j+1) 0 / M 0 0`.
LAPACK `dpotrf('L', ...)` reads only the lower triangle; for the symmetric
matrices of this analysis this formula is that lower-triangle update. -/
def schurComplement {p : ℕ} (M : Matrix (Fin (p + 1)) (Fin (p + 1)) ℚ) :
    Matrix (Fin p) (Fin p) ℚ :=
  Matrix.of fun i j => M i.succ j.succ - M i.succ 0 * M j.succ 0 / M 0 0

/-- Success criterion of `np.linalg.cholesky` (LAPACK `dpotrf`): the
factorization completes iff every pivot — `M 0 0`, then recursively the
pivots of the Schur complement — is strictly positive; on a non-positive
pivot `dpotrf` stops and numpy raises `LinAlgError`.  (The factor's entries
are square roots and have no exact rational representation; the embedding
therefore keeps the factor abstract and models only this success test,
which determines the error behavior.) -/
def choleskyOk : (p : ℕ) → Matrix (Fin p) (Fin p) ℚ → Bool
  | 0, _ => true
  | _ + 1, M => if M 0 0 ≤ 0 then false else choleskyOk _ (schurComplement M)

/-- Positive definiteness of a rational matrix, as a quadratic form. -/
def IsPosDefQ {p : ℕ} (M : Matrix (Fin p) (Fin p) ℚ) : Prop :=
  ∀ x : Fin p → ℚ, x ≠ 0 → 0 < Matrix.dotProduct x (M.mulVec x)

/-- The per-column transform of the sampler's loop body,
`np.linalg.solve(L, standard_normal_samples)`: one column `z` of the
standard-normal draw is mapped to `L⁻¹ z` (the mean is added outside). -/
def sampleDeviation {p : ℕ} (L : Matrix (Fin p) (Fin p) ℚ)
    (z : Fin p → ℚ) : Fin p → ℚ :=
  (matInv L).mulVec z

/-- Covariance propagation through a linear map: a random vector with
second-moment matrix `C` is mapped by `T` to one with second moment
`T·C·Tᵀ`. -/
def propagateCov {p : ℕ} (T C : Matrix (Fin p) (Fin p) ℚ) :
    Matrix (Fin p) (Fin p) ℚ :=
  T * C * Tᵀ

/-- The second-moment (covariance) matrix of the sampler's deviation
`sampleDeviation L z` over standard-normal `z` (identity second moment):
`L⁻¹ · 1 · (L⁻¹)ᵀ`. -/
def sampleDevCov {p : ℕ} (L : Matrix (Fin p) (Fin p) ℚ) :
    Matrix (Fin p) (Fin p) ℚ :=
  propagateCov (matInv L) 1

/-- `np.squeeze` on shapes: every axis of size exactly 1 is removed
(zero-size axes are kept). -/
def squeezeShape (l : List ℕ) : List ℕ :=
  l.filter (fun d => d != 1)

/-- Result of `sample_coef_posterior`: the pre-squeeze sample array
`(n_voxels, n_coefs, n_samples)` as a function, together with the shape of
the array the call returns after its final unconditional `np.squeeze`. -/
structure SampleResult (n p s : ℕ) where
  values : Fin n → Fin p → Fin s → ℚ
  shape : List ℕ

/-- `sample_coef_posterior(mean, precision, n_samples)` after the
`np.atleast_2d` / `reshape(n_voxels, n_coefs, n_coefs)` normalization to
`n` units of `p` coefficients.

`nsamples : ℤ` is the requested count: `np.zeros((n, p, n_samples))` runs
first and rejects a negative dimension with a `ValueError`
(invalid-parameter kind) — note `n_samples = 0` is accepted and yields an
empty array.  The loop then draws `Z` (the `np.random.randn` output, an
oracle parameter here: the generator is process-global state seeded by the
caller) and Cholesky-factors each unit's precision; a non-positive-definite
unit aborts the call with `LinAlgError`.  `lfac` abstracts the numeric
factor `L` (its entries are irrational square roots); the samples are
`mean + L⁻¹·Z` columnwise, and the returned shape is the squeeze of
`(n, p, n_samples)`. -/
def sampleCore {p : ℕ}
    (lfac : Matrix (Fin p) (Fin p) ℚ → Matrix (Fin p) (Fin p) ℚ) (n : ℕ)
    (mean : Fin n → Fin p → ℚ)
    (precision : Fin n → Matrix (Fin p) (Fin p) ℚ) (nsamples : ℤ)
    (Z : Fin n → Fin p → Fin nsamples.toNat → ℚ) :
    Except NpError (SampleResult n p nsamples.toNat) :=
  if nsamples < 0 then .error .invalidParameter
  else if ∀ v : Fin n, choleskyOk p (precision v) = true then
    .ok ⟨fun v i s => mean v i
          + sampleDeviation (lfac (precision v)) (fun k => Z v k s) i,
      squeezeShape [n, p, nsamples.toNat]⟩
  else .error .notPositiveDefinite

/-- `sample_coef_posterior` called with a 1-D mean of length `p` and a
`(p, p)` precision: `np.atleast_2d` makes the mean `(1, p)`, the reshape
makes the precision `(1, p, p)`. -/
def sampleCoefPosterior1 {p : ℕ}
    (lfac : Matrix (Fin p) (Fin p) ℚ → Matrix (Fin p) (Fin p) ℚ)
    (mean : Fin p → ℚ) (precision : Matrix (Fin p) (Fin p) ℚ)
    (nsamples : ℤ) (Z : Fin p → Fin nsamples.toNat → ℚ) :
    Except NpError (SampleResult 1 p nsamples.toNat) :=
  sampleCore lfac 1 (fun _ => mean) (fun _ => precision) nsamples
    (fun _ => Z)

/-- `sample_coef_posterior` called with an already-stacked `(n, p)` mean
and `(n, p, p)` precisions: `np.atleast_2d` and the reshape are no-ops. -/
def sampleCoefPosteriorB {p : ℕ}
    (lfac : Matrix (Fin p) (Fin p) ℚ → Matrix (Fin p) (Fin p) ℚ) {n : ℕ}
    (mean : Fin n → Fin p → ℚ)
    (precision : Fin n → Matrix (Fin p) (Fin p) ℚ) (nsamples : ℤ)
    (Z : Fin n → Fin p → Fin nsamples.toNat → ℚ) :
    Except NpError (SampleResult n p nsamples.toNat) :=
  sampleCore lfac n mean precision nsamples Z

/-- Quadratic-form decomposition along the first pivot: for a symmetric
matrix `M` with `a = M 0 0 ≠ 0`,
`xᵀ·M·x = a·(x₀ + t/a)² + x'ᵀ·S·x'`, where `x'` drops the first
coordinate, `t = Σᵢ M (i+1) 0 · x (i+1)`, and `S` is the Schur
complement. -/
theorem qform_pivot_decomposition {p : ℕ}
    (M : Matrix (Fin (p + 1)) (Fin (p + 1)) ℚ) (hsym : Mᵀ = M)
    (ha : M 0 0 ≠ 0) (x : Fin (p + 1) → ℚ) :
    Matrix.dotProduct x (M.mulVec x)
      = M 0 0 * (x 0 + (∑ i : Fin p, M i.succ 0 * x i.succ) / M 0 0) ^ 2
        + Matrix.dotProduct (fun i => x i.succ)
            ((schurComplement M).mulVec fun i => x i.succ) := by
  have hM : ∀ i j, M j i = M i j := fun i j => congrFun (congrFun hsym i) j
  have hQ : Matrix.dotProduct x (M.mulVec x)
      = x 0 * (M 0 0 * x 0) + x 0 * (∑ j : Fin p, M j.succ 0 * x j.succ)
        + ((∑ i : Fin p, M i.succ 0 * x i.succ) * x 0
          + ∑ i : Fin p, x i.succ * ∑ j : Fin p, M i.succ j.succ * x j.succ) := by
    simp only [Matrix.dotProduct, Matrix.mulVec]
    rw [Fin.sum_univ_succ]
    simp only [Fin.sum_univ_succ]
    have h0 : (∑ j : Fin p, M 0 j.succ * x j.succ)
        = ∑ j : Fin p, M j.succ 0 * x j.succ :=
      Finset.sum_congr rfl fun j _ => by rw [hM j.succ 0]
    have h1 : (∑ i : Fin p,
          x i.succ * (M i.succ 0 * x 0 + ∑ j : Fin p, M i.succ j.succ * x j.succ))
        = (∑ i : Fin p, M i.succ 0 * x i.succ) * x 0
          + ∑ i : Fin p, x i.succ * ∑ j : Fin p, M i.succ j.succ * x j.succ := by
      rw [Finset.sum_mul, ← Finset.sum_add_distrib]
      exact Finset.sum_congr rfl fun i _ => by ring
    rw [h1, h0, mul_add]
  have hS : Matrix.dotProduct (fun i => x i.succ)
        ((schurComplement M).mulVec fun i => x i.succ)
      = (∑ i : Fin p, x i.succ * ∑ j : Fin p, M i.succ j.succ * x j.succ)
        - (∑ i : Fin p, M i.succ 0 * x i.succ) * (∑ j : Fin p, M j.succ 0 * x j.succ)
          / M 0 0 := by
    simp only [Matrix.dotProduct, Matrix.mulVec, schurComplement,
      Matrix.of_apply]
    have hsplit : ∀ i : Fin p,
        (∑ j : Fin p, (M i.succ j.succ - M i.succ 0 * M j.succ 0 / M 0 0) * x j.succ)
          = (∑ j : Fin p, M i.succ j.succ * x j.succ)
            - M i.succ 0 / M 0 0 * ∑ j : Fin p, M j.succ 0 * x j.succ := by
      intro i
      rw [Finset.mul_sum, ← Finset.sum_sub_distrib]
      exact Finset.sum_congr rfl fun j _ => by ring
    simp only [hsplit]
    have hexp : ∀ i : Fin p,
        x i.succ * ((∑ j : Fin p, M i.succ j.succ * x j.succ)
            - M i.succ 0 / M 0 0 * ∑ j : Fin p, M j.succ 0 * x j.succ)
          = x i.succ * (∑ j : Fin p, M i.succ j.succ * x j.succ)
            - M i.succ 0 * x i.succ * (∑ j : Fin p, M j.succ 0 * x j.succ)
              / M 0 0 := by
      intro i
      ring
    simp only [hexp]
    rw [Finset.sum_sub_distrib]
    congr 1
    rw [← Finset.sum_div, ← Finset.sum_mul]
  rw [hQ, hS]
  field_simp
  ring

/-- A successful Cholesky pivot recursion on a symmetric matrix certifies
positive definiteness (all pivots positive means the matrix has an
`L·D·Lᵀ` factorization with positive `D`). -/
theorem choleskyOk_isPosDef :
    ∀ (p : ℕ) (M : Matrix (Fin p) (Fin p) ℚ),
      Mᵀ = M → choleskyOk p M = true → IsPosDefQ M := by
  intro p
  induction p with
  | zero =>
      intro M _ _ x hx
      exact absurd (funext fun i => i.elim0) hx
  | succ p ih =>
      intro M hsym hok x hx
      rw [choleskyOk] at hok
      by_cases h00 : M 0 0 ≤ 0
      · rw [if_pos h00] at hok
        exact absurd hok (by simp)
      rw [if_neg h00] at hok
      have ha : 0 < M 0 0 := lt_of_not_le h00
      have hM : ∀ i j, M j i = M i j := fun i j => congrFun (congrFun hsym i) j
      have hssym : (schurComplement M)ᵀ = schurComplement M := by
        ext i j
        simp only [Matrix.transpose_apply, schurComplement, Matrix.of_apply]
        rw [hM i.succ j.succ]
        ring
      have hpd := ih (schurComplement M) hssym hok
      rw [qform_pivot_decomposition M hsym (ne_of_gt ha) x]
      by_cases hx' : (fun i : Fin p => x i.succ) = 0
      · have hx0 : x 0 ≠ 0 := by
          intro h0
          apply hx
          funext i
          refine Fin.cases ?_ ?_ i
          · exact h0
          · intro j
            have := congrFun hx' j
            simpa using this
        have hT : (∑ i : Fin p, M i.succ 0 * x i.succ) = 0 := by
          apply Finset.sum_eq_zero
          intro i _
          have := congrFun hx' i
          simp only [Pi.zero_apply] at this
          rw [this, mul_zero]
        have hschur0 : Matrix.dotProduct (fun i : Fin p => x i.succ)
            ((schurComplement M).mulVec fun i => x i.succ) = 0 := by
          rw [hx']
          simp [Matrix.dotProduct]
        rw [hT, hschur0, zero_div, add_zero, add_zero]
        have hsq : 0 < x 0 ^ 2 :=
          lt_of_le_of_ne (sq_nonneg _) (Ne.symm (pow_ne_zero 2 hx0))
        exact mul_pos ha hsq
      · have hs := hpd _ hx'
        have hsq : 0 ≤ M 0 0
            * (x 0 + (∑ i : Fin p, M i.succ 0 * x i.succ) / M 0 0) ^ 2 :=
          mul_nonneg (le_of_lt ha) (sq_nonneg _)
        linarith

/-- C6: a symmetric precision matrix that is not positive definite makes
the sampler fail with the not-positive-definite error kind — the Cholesky
factorization is what fails — rather than return samples.  (`0 ≤ ns`
restricts to sample counts that get past the array allocation, which
otherwise fails first.) -/
theorem C6_not_posdef_error {p : ℕ}
    (lfac : Matrix (Fin p) (Fin p) ℚ → Matrix (Fin p) (Fin p) ℚ)
    (mean : Fin p → ℚ) (P : Matrix (Fin p) (Fin p) ℚ) (ns : ℤ)
    (Z : Fin p → Fin ns.toNat → ℚ) (hns : 0 ≤ ns) (hsym : Pᵀ = P)
    (hnpd : ¬ IsPosDefQ P) :
    sampleCoefPosterior1 lfac mean P ns Z = .error .notPositiveDefinite := by
  have hns' : ¬ ns < 0 := not_lt.mpr hns
  have hall : ¬ ∀ v : Fin 1,
      choleskyOk p ((fun _ => P) v) = true := by
    intro hall
    exact hnpd (choleskyOk_isPosDef p P hsym (hall 0))
  rw [sampleCoefPosterior1, sampleCore, if_neg hns', if_neg hall]

/-- C6 witness: the zero matrix is symmetric and not positive definite, and
the sampler rejects it. -/
theorem C6_witness :
    ((0:ℤ) ≤ 1 ∧ (!![(0:ℚ), 0; 0, 0])ᵀ = !![(0:ℚ), 0; 0, 0]
        ∧ ¬ IsPosDefQ !![(0:ℚ), 0; 0, 0]) ∧
      sampleCoefPosterior1 (fun M => M) ![0, 0] !![(0:ℚ), 0; 0, 0] 1
          (fun _ _ => 0)
        = .error .notPositiveDefinite := by
  have hsym : (!![(0:ℚ), 0; 0, 0])ᵀ = !![(0:ℚ), 0; 0, 0] := by
    ext i j
    fin_cases i <;> fin_cases j <;> simp
  have hnpd : ¬ IsPosDefQ !![(0:ℚ), 0; 0, 0] := by
    intro h
    have hne : ![(1:ℚ), 0] ≠ 0 := by
      intro hh
      have := congrFun hh 0
      norm_num at this
    have h1 := h ![1, 0] hne
    norm_num [Matrix.dotProduct, Matrix.mulVec, Fin.sum_univ_two,
      Matrix.vecHead, Matrix.vecTail] at h1
  exact ⟨⟨by norm_num, hsym, hnpd⟩,
    C6_not_posdef_error _ _ _ _ _ (by norm_num) hsym hnpd⟩

/-- C7 (amended): a negative `n_samples` fails with the invalid-parameter
kind: `np.zeros((n_voxels, n_coefs, n_samples))` rejects the negative
dimension before anything else runs.  (`n_samples = 0` does NOT fail — see
the counterexample — so the claim's `n_samples ≤ 0` is amended to
`n_samples < 0`.) -/
theorem C7_negative_nsamples {p : ℕ}
    (lfac : Matrix (Fin p) (Fin p) ℚ → Matrix (Fin p) (Fin p) ℚ) (n : ℕ)
    (mean : Fin n → Fin p → ℚ)
    (precision : Fin n → Matrix (Fin p) (Fin p) ℚ) (ns : ℤ)
    (Z : Fin n → Fin p → Fin ns.toNat → ℚ) (h : ns < 0) :
    sampleCore lfac n mean precision ns Z = .error .invalidParameter := by
  rw [sampleCore, if_pos h]

/-- C7 witness: `n_samples = -1` on a valid single-unit input. -/
theorem C7_witness :
    ((-1:ℤ) < 0) ∧
      sampleCore (fun M => M) 1 (fun _ => ![(0:ℚ)]) (fun _ => !![(1:ℚ)])
          (-1) (fun _ _ _ => 0)
        = .error .invalidParameter :=
  ⟨by norm_num, C7_negative_nsamples _ _ _ _ _ _ (by norm_num)⟩

/-- C7 counterexample: `n_samples = 0` with a positive-definite precision
does not raise: `np.zeros((1, 1, 0))` is legal, the loop still factors the
precision, and the call returns an empty sample array (post-squeeze shape
`(0,)`), not an invalid-parameter failure as the claim states for every
`n_samples ≤ 0`. -/
theorem C7_counterexample :
    (sampleCoefPosterior1 (fun M => M) ![(0:ℚ)] !![(1:ℚ)] 0
        (fun _ _ => 0)).map (fun r => r.shape) = .ok [0] := by
  rw [sampleCoefPosterior1, sampleCore]
  norm_num [choleskyOk, squeezeShape, Except.map]

/-- C9 (amended): a single-unit call (1-D mean of length `p ≠ 1`) with
`n_samples = 1` returns a 1-D array of length `p`: the final unconditional
`np.squeeze` removes both the batch axis and the samples axis from the
`(1, p, 1)` sample array.  (For `p = 1` even the coefficient axis is
removed and the result is 0-D — see the counterexample — so the claim is
amended to `p ≠ 1`.) -/
theorem C9_single_unit_shape {p : ℕ}
    (lfac : Matrix (Fin p) (Fin p) ℚ → Matrix (Fin p) (Fin p) ℚ)
    (mean : Fin p → ℚ) (P : Matrix (Fin p) (Fin p) ℚ)
    (Z : Fin p → Fin (1:ℤ).toNat → ℚ) (hchol : choleskyOk p P = true)
    (hp : p ≠ 1) :
    (sampleCoefPosterior1 lfac mean P 1 Z).map (fun r => r.shape)
      = .ok [p] := by
  rw [sampleCoefPosterior1, sampleCore, if_neg (by norm_num),
    if_pos (fun _ => hchol)]
  have hbne : (p != 1) = true := bne_iff_ne.mpr hp
  simp [Except.map, squeezeShape, List.filter, hbne]

/-- C9 witness: two coefficients, identity precision. -/
theorem C9_witness :
    (choleskyOk 2 !![(1:ℚ), 0; 0, 1] = true ∧ (2:ℕ) ≠ 1) ∧
      (sampleCoefPosterior1 (fun M => M) ![(0:ℚ), 0] !![(1:ℚ), 0; 0, 1] 1
          (fun _ _ => 0)).map (fun r => r.shape)
        = .ok [2] := by
  have hchol : choleskyOk 2 !![(1:ℚ), 0; 0, 1] = true := by
    norm_num [choleskyOk, schurComplement, Matrix.of_apply]
  exact ⟨⟨hchol, by norm_num⟩,
    C9_single_unit_shape _ _ _ _ hchol (by norm_num)⟩

/-- C9 counterexample: with a single coefficient (`p = 1`) the squeeze of
the `(1, 1, 1)` sample array removes every axis, so the call returns a 0-D
scalar, not the 1-D array of length `n_coefs` the claim states for every
single-unit call. -/
theorem C9_counterexample :
    (sampleCoefPosterior1 (fun M => M) ![(0:ℚ)] !![(1:ℚ)] 1
          (fun _ _ => 0)).map (fun r => r.shape) = .ok []
      ∧ ([] : List ℕ) ≠ [1] := by
  constructor
  · rw [sampleCoefPosterior1, sampleCore]
    norm_num [choleskyOk, squeezeShape, Except.map]
  · intro h
    exact List.cons_ne_nil 1 [] h.symm

/-- C8: a batch-of-one call agrees with the plain single-unit call, for the
estimator (both output variants: the batch result is the single-unit result
with a leading length-1 axis) and for the sampler (`np.atleast_2d` maps the
1-D mean onto the same one-unit loop, given the same standard-normal
draws), including failures. -/
theorem C8_batch_of_one {m p : ℕ} (A : Matrix (Fin m) (Fin p) ℚ)
    (y : Fin m → ℚ) (R : Option (Matrix (Fin p) (Fin p) ℚ))
    (lfac : Matrix (Fin p) (Fin p) ℚ → Matrix (Fin p) (Fin p) ℚ)
    (mean : Fin p → ℚ) (P : Matrix (Fin p) (Fin p) ℚ) (ns : ℤ)
    (Z : Fin 1 → Fin p → Fin ns.toNat → ℚ) :
    probLeastSquaresBatch A ![y] R
        = (probLeastSquares A y R).map
            (fun r => ⟨![r.mean], ![r.residualVariance]⟩) ∧
      probLeastSquaresBatchP A ![y] R
          = (probLeastSquaresP A y R).map
              (fun r => ⟨![r.mean], ![r.residualVariance], ![r.precision]⟩) ∧
      sampleCoefPosteriorB lfac ![mean] ![P] ns Z
          = sampleCoefPosterior1 lfac mean P ns (Z 0) := by
  refine ⟨?_, ?_, ?_⟩
  · by_cases hdet : (unscaledPrecision A R).det = 0 <;>
      simp [probLeastSquaresBatch, probLeastSquares, hdet, Except.map,
        funext_iff, Fin.forall_fin_one]
  · by_cases hdet : (unscaledPrecision A R).det = 0 <;>
      simp [probLeastSquaresBatchP, probLeastSquaresP, hdet, Except.map,
        funext_iff, Fin.forall_fin_one, Fin.mk_zero]
  · have h1 : (![mean] : Fin 1 → Fin p → ℚ) = fun _ => mean := by
      funext v
      rw [Subsingleton.elim v 0]
      simp
    have h2 : (![P] : Fin 1 → Matrix (Fin p) (Fin p) ℚ) = fun _ => P := by
      funext v
      rw [Subsingleton.elim v 0]
      simp
    have h3 : Z = fun _ => Z 0 := by
      funext v
      rw [Subsingleton.elim v 0]
    rw [sampleCoefPosteriorB, sampleCoefPosterior1, h1, h2, ← h3]

/-- A left inverse of a nonsingular matrix is `matInv`. -/
theorem eq_matInv_of_mul_eq_one {p : ℕ}
    {X U : Matrix (Fin p) (Fin p) ℚ} (hdet : U.det ≠ 0) (h : X * U = 1) :
    X = matInv U := by
  calc X = X * (U * matInv U) := by rw [self_mul_matInv _ hdet, mul_one]
    _ = (X * U) * matInv U := by rw [Matrix.mul_assoc]
    _ = matInv U := by rw [h, one_mul]

/-- `matInv` commutes with transposition. -/
theorem matInv_transpose {p : ℕ} (M : Matrix (Fin p) (Fin p) ℚ) :
    matInv (Mᵀ) = (matInv M)ᵀ := by
  rw [matInv, matInv, Matrix.det_transpose, ← Matrix.adjugate_transpose,
    Matrix.transpose_smul]

/-- The sampler's deviation `L⁻¹·z` over standard-normal `z` has
second-moment matrix `(Lᵀ·L)⁻¹` — not `(L·Lᵀ)⁻¹`, which is what the target
posterior covariance `precision⁻¹ = (L·Lᵀ)⁻¹` requires. -/
theorem sampleDevCov_eq {p : ℕ} (L : Matrix (Fin p) (Fin p) ℚ)
    (h : L.det ≠ 0) : sampleDevCov L = matInv (Lᵀ * L) := by
  have hdet : (Lᵀ * L).det ≠ 0 := by
    rw [Matrix.det_mul, Matrix.det_transpose]
    exact mul_ne_zero h h
  have hdetT : (Lᵀ).det ≠ 0 := by
    rw [Matrix.det_transpose]
    exact h
  apply eq_matInv_of_mul_eq_one hdet
  rw [sampleDevCov, propagateCov, mul_one, ← matInv_transpose]
  calc matInv L * matInv Lᵀ * (Lᵀ * L)
      = matInv L * (matInv Lᵀ * Lᵀ) * L := by
        simp only [Matrix.mul_assoc]
    _ = 1 := by
        rw [matInv_mul_self _ hdetT, mul_one, matInv_mul_self _ h]

/-- C1: evaluation of the sampler's transform at the failing input.  The
precision `[[1,1],[1,2]]` passes the Cholesky test and its (unique) lower
Cholesky factor with positive diagonal is exactly `L = [[1,0],[1,1]]`
(`L·Lᵀ = precision`); the code's transform `solve(L, Z)` produces columns
with covariance `sampleDevCov L = [[1,-1],[-1,2]] = (LᵀL)⁻¹`, while the
target posterior covariance is `precision⁻¹ = [[2,-1],[-1,1]] = (LLᵀ)⁻¹`.
The two differ: solving with `L` instead of `Lᵀ` samples from the wrong
covariance, so the claimed identity `L⁻¹(L⁻¹)ᵀ = (LLᵀ)⁻¹` fails for the
factor the code uses. -/
theorem C1_sampler_covariance_bug :
    (!![(1:ℚ), 0; 1, 1] * (!![(1:ℚ), 0; 1, 1])ᵀ = !![(1:ℚ), 1; 1, 2]
        ∧ choleskyOk 2 !![(1:ℚ), 1; 1, 2] = true
        ∧ !![(1:ℚ), 0; 1, 1] 0 1 = 0
        ∧ 0 < !![(1:ℚ), 0; 1, 1] 0 0 ∧ 0 < !![(1:ℚ), 0; 1, 1] 1 1)
      ∧ sampleDevCov !![(1:ℚ), 0; 1, 1] = !![1, -1; -1, 2]
      ∧ matInv !![(1:ℚ), 1; 1, 2] = !![2, -1; -1, 1]
      ∧ sampleDevCov !![(1:ℚ), 0; 1, 1]
          ≠ matInv (!![(1:ℚ), 0; 1, 1] * (!![(1:ℚ), 0; 1, 1])ᵀ) := by
  have hLLt : !![(1:ℚ), 0; 1, 1] * (!![(1:ℚ), 0; 1, 1])ᵀ
      = !![(1:ℚ), 1; 1, 2] := by
    ext i j
    fin_cases i <;> fin_cases j <;>
      simp [Matrix.mul_apply, Fin.sum_univ_two, Matrix.transpose_apply,
        Matrix.vecHead, Matrix.vecTail] <;> norm_num
  have hinvL : matInv !![(1:ℚ), 0; 1, 1] = !![1, 0; -1, 1] := by
    have hdet : (!![(1:ℚ), 0; 1, 1]).det = 1 := by
      simp [Matrix.det_fin_two]
    rw [matInv, hdet, Matrix.adjugate_fin_two]
    ext i j
    fin_cases i <;> fin_cases j <;> simp
  have hdevcov : sampleDevCov !![(1:ℚ), 0; 1, 1] = !![1, -1; -1, 2] := by
    rw [sampleDevCov, propagateCov, hinvL, mul_one]
    ext i j
    fin_cases i <;> fin_cases j <;>
      simp [Matrix.mul_apply, Fin.sum_univ_two, Matrix.transpose_apply,
        Matrix.vecHead, Matrix.vecTail] <;> norm_num
  have hinvP : matInv !![(1:ℚ), 1; 1, 2] = !![2, -1; -1, 1] := by
    have hdet : (!![(1:ℚ), 1; 1, 2]).det = 1 := by
      simp [Matrix.det_fin_two]
      norm_num
    rw [matInv, hdet, Matrix.adjugate_fin_two]
    ext i j
    fin_cases i <;> fin_cases j <;> simp <;> norm_num
  have hchol : choleskyOk 2 !![(1:ℚ), 1; 1, 2] = true := by
    norm_num [choleskyOk, schurComplement, Matrix.of_apply]
  refine ⟨⟨hLLt, hchol, by simp, by simp, by simp⟩, hdevcov, hinvP, ?_⟩
  rw [hLLt, hdevcov, hinvP]
  intro h
  have := congrFun (congrFun h 0) 0
  norm_num at this
